import Mathlib

/-
Verification of the algorithmic core of the MNIST-Fashion repository:
the vision-transformer pipeline in src/methods/deep_network.py
(patchify, positional embeddings, multi-head self-attention, MyViT
forward, Trainer reshape dispatch) and PCA in src/methods/pca.py.

Tensors are shallowly embedded: a torch tensor of floats becomes a
total function from natural-number indices to ℝ (out-of-range indices
read junk values that no theorem depends on), or a Mathlib `Matrix`
over `Fin` when the dimensions are statically known.  Floating-point
arithmetic is idealized as real arithmetic; real division is total
(x / 0 = 0), which is noted wherever it matters.
-/

noncomputable section

abbrev Tensor3 : Type := ℕ → ℕ → ℕ → ℝ

abbrev Tensor4 : Type := ℕ → ℕ → ℕ → ℕ → ℝ

/-- Embedding of the slice `image[:, i*ps:(i+1)*ps, j*ps:(j+1)*ps]`
taken in `patchify` (deep_network.py line 380). -/
def sliceP (image : ℕ → ℕ → ℕ → ℝ) (ps i j : ℕ) : ℕ → ℕ → ℕ → ℝ :=
  fun ch r col => image ch (i * ps + r) (j * ps + col)

/-- Embedding of `.flatten()` on a (C, s1, s2) tensor: row-major
(C-contiguous) flattening, channel-major then row then column. -/
def flatten3 (t : ℕ → ℕ → ℕ → ℝ) (s1 s2 : ℕ) : ℕ → ℝ :=
  fun k => t (k / (s1 * s2)) (k % (s1 * s2) / s2) (k % s2)

/-- Embedding of the assignment `patches[idx, p] = row` on the patches
tensor. -/
def writeRow (t : Tensor3) (idx p : ℕ) (row : ℕ → ℝ) : Tensor3 :=
  fun idx' p' k => if idx' = idx ∧ p' = p then row k else t idx' p' k

/-- Inner loop `for j in range(n_patches)` of `patchify`
(deep_network.py lines 377-383): extract the (i,j) patch, flatten it
and store it at sequence position `i * n_patches + j`. -/
def patchLoopJ (images : Tensor4) (ps P idx i : ℕ) (acc : Tensor3) : Tensor3 :=
  (List.range P).foldl
    (fun a j => writeRow a idx (i * P + j) (flatten3 (sliceP (images idx) ps i j) ps ps)) acc

/-- Middle loop `for i in range(n_patches)` of `patchify`. -/
def patchLoopI (images : Tensor4) (ps P idx : ℕ) (acc : Tensor3) : Tensor3 :=
  (List.range P).foldl (fun a i => patchLoopJ images ps P idx i a) acc

/-- Embedding of `patchify(images, n_patches)` (deep_network.py lines
367-384): `patches = torch.zeros(...)` then the three nested loops
over image index, grid row and grid column; `patch_size = h // n_patches`. -/
def patchify (images : Tensor4) (n h P : ℕ) : Tensor3 :=
  (List.range n).foldl (fun a idx => patchLoopI images (h / P) P idx a) (fun _ _ _ => 0)

/-- The reassembly procedure described by claim C2: the row of the
patch tensor at patch index `(r/s)*P + col/s` is un-flattened
channel-major back into its grid cell. -/
def reassemble (patches : Tensor3) (P s : ℕ) : Tensor4 :=
  fun idx ch r col =>
    patches idx (r / s * P + col / s) (ch * (s * s) + r % s * s + col % s)

/-- Embedding of `get_positional_embeddings(sequence_length, d)`
(deep_network.py lines 386-395, first textual definition): the table
starts as `torch.ones` and every in-range entry is overwritten with
the sinusoidal formula; even columns get `sin(i / 10000**(j/d))`, odd
columns get `cos(i / 10000**((j-1)/d))`. -/
def get_positional_embeddings (L d : ℕ) : ℕ → ℕ → ℝ :=
  fun i j =>
    if i < L ∧ j < d then
      if j % 2 = 0 then
        Real.sin ((i : ℝ) / (10000 : ℝ) ^ ((j : ℝ) / (d : ℝ)))
      else
        Real.cos ((i : ℝ) / (10000 : ℝ) ^ (((j : ℝ) - 1) / (d : ℝ)))
    else 1

/-- Embedding of the second, textually identical definition of
`get_positional_embeddings` (deep_network.py lines 397-406), which
shadows the first one in Python. -/
def get_positional_embeddings_redef (L d : ℕ) : ℕ → ℕ → ℝ :=
  fun i j =>
    if i < L ∧ j < d then
      if j % 2 = 0 then
        Real.sin ((i : ℝ) / (10000 : ℝ) ^ ((j : ℝ) / (d : ℝ)))
      else
        Real.cos ((i : ℝ) / (10000 : ℝ) ^ (((j : ℝ) - 1) / (d : ℝ)))
    else 1

/-- Row-wise softmax, the meaning of `nn.Softmax(dim=-1)` applied to a
row of scores. -/
def softmaxR {m : ℕ} (v : Fin m → ℝ) : Fin m → ℝ :=
  fun j => Real.exp (v j) / ∑ i, Real.exp (v i)

/-- Embedding of `nn.Linear(i, o)` applied row-wise to an (L, i)
tensor: `y = x Wᵀ + b`. -/
def linearApply {L i o : ℕ} (W : Matrix (Fin o) (Fin i) ℝ) (b : Fin o → ℝ)
    (x : Matrix (Fin L) (Fin i) ℝ) : Matrix (Fin L) (Fin o) ℝ :=
  fun r j => (∑ t, x r t * W j t) + b j

/-- The learned weights of one attention head: the head's own
query/key/value `nn.Linear(d_head, d_head)` maps (deep_network.py
lines 418-420). -/
structure HeadParams (dh : ℕ) where
  qW : Matrix (Fin dh) (Fin dh) ℝ
  qb : Fin dh → ℝ
  kW : Matrix (Fin dh) (Fin dh) ℝ
  kb : Fin dh → ℝ
  vW : Matrix (Fin dh) (Fin dh) ℝ
  vb : Fin dh → ℝ

/-- Embedding of the slice `sequence[:, head*d_head : (head+1)*d_head]`
(deep_network.py line 435). -/
def headSlice {L H dh : ℕ} (x : Matrix (Fin L) (Fin (H * dh)) ℝ) (hd : Fin H) :
    Matrix (Fin L) (Fin dh) ℝ :=
  fun i t => x i ⟨hd.1 * dh + t.1, by
    have h1 : hd.1 + 1 ≤ H := hd.2
    have h2 : t.1 < dh := t.2
    calc hd.1 * dh + t.1 < hd.1 * dh + dh := by omega
      _ = (hd.1 + 1) * dh := by ring
      _ ≤ H * dh := Nat.mul_le_mul_right dh h1⟩

/-- Embedding of the per-head computation in `MyMSA.forward`
(deep_network.py lines 428-441): `q, k, v` are the head's linear
projections of the slice, `attention = q @ k.T / np.sqrt(d_head)`, and
the head's output is `attention @ v`.  NOTE: exactly as in the source,
no softmax is applied to the scores (the `nn.Softmax` built in
`MyMSA.__init__` is never used). -/
def msaHead {L dh : ℕ} (p : HeadParams dh) (seq : Matrix (Fin L) (Fin dh) ℝ) :
    Matrix (Fin L) (Fin dh) ℝ :=
  let q := linearApply p.qW p.qb seq
  let k := linearApply p.kW p.kb seq
  let v := linearApply p.vW p.vb seq
  let att : Matrix (Fin L) (Fin L) ℝ := fun a b => (∑ t, q a t * k b t) / Real.sqrt (dh : ℝ)
  fun a t => ∑ b, att a b * v b t

/-- Embedding of `MyMSA.forward` (deep_network.py lines 424-443) on a
single sequence of the batch: per-head slices are processed
independently and the heads' outputs are `torch.hstack`ed, so output
column `k` comes from head `k / d_head`, inner column `k % d_head`. -/
def msaForward {L H dh : ℕ} (params : Fin H → HeadParams dh)
    (x : Matrix (Fin L) (Fin (H * dh)) ℝ) : Matrix (Fin L) (Fin (H * dh)) ℝ :=
  fun i k =>
    have hdh : 0 < dh := by
      rcases Nat.eq_zero_or_pos dh with h | h
      · subst h
        have hk := k.2
        simp at hk
      · exact h
    have hhd : k.1 / dh < H := Nat.div_lt_of_lt_mul (by rw [Nat.mul_comm dh H]; exact k.2)
    msaHead (params ⟨k.1 / dh, hhd⟩) (headSlice x ⟨k.1 / dh, hhd⟩) i ⟨k.1 % dh, Nat.mod_lt _ hdh⟩

/-- The per-head computation the specification describes: identical to
`msaHead` except that the scaled scores are passed through a row-wise
softmax before multiplying by V. -/
def msaHeadSpec {L dh : ℕ} (p : HeadParams dh) (seq : Matrix (Fin L) (Fin dh) ℝ) :
    Matrix (Fin L) (Fin dh) ℝ :=
  let q := linearApply p.qW p.qb seq
  let k := linearApply p.kW p.kb seq
  let v := linearApply p.vW p.vb seq
  let att : Matrix (Fin L) (Fin L) ℝ := fun a b => (∑ t, q a t * k b t) / Real.sqrt (dh : ℝ)
  fun a t => ∑ b, softmaxR (att a) b * v b t

/-- The multi-head forward the specification describes (softmax
applied per head), for comparison with `msaForward`. -/
def msaForwardSpec {L H dh : ℕ} (params : Fin H → HeadParams dh)
    (x : Matrix (Fin L) (Fin (H * dh)) ℝ) : Matrix (Fin L) (Fin (H * dh)) ℝ :=
  fun i k =>
    have hdh : 0 < dh := by
      rcases Nat.eq_zero_or_pos dh with h | h
      · subst h
        have hk := k.2
        simp at hk
      · exact h
    have hhd : k.1 / dh < H := Nat.div_lt_of_lt_mul (by rw [Nat.mul_comm dh H]; exact k.2)
    msaHeadSpec (params ⟨k.1 / dh, hhd⟩) (headSlice x ⟨k.1 / dh, hhd⟩) i
      ⟨k.1 % dh, Nat.mod_lt _ hdh⟩

/-- Embedding of `nn.LayerNorm(m)` on one token vector: normalize to
zero mean and unit (biased) variance with epsilon 1e-5, then apply the
learned scale and shift. -/
def layerNorm {m : ℕ} (g b : Fin m → ℝ) (x : Fin m → ℝ) : Fin m → ℝ :=
  let mu := (∑ j, x j) / m
  let va := (∑ j, (x j - mu) ^ 2) / m
  fun j => (x j - mu) / Real.sqrt (va + 1e-5) * g j + b j

/-- The standard Gaussian cumulative distribution function. -/
def gaussCdf (x : ℝ) : ℝ :=
  (∫ t in Set.Iic x, Real.exp (-(t ^ 2) / 2)) / Real.sqrt (2 * Real.pi)

/-- Embedding of `nn.GELU()` (exact mode): `gelu x = x * Φ(x)`. -/
def gelu (x : ℝ) : ℝ := x * gaussCdf x

/-- The learned weights of one `MyViTBlock` (deep_network.py lines
445-458) with the default `mlp_ratio = 4`: two layer norms, the
per-head attention weights, and the two feed-forward linears
`hidden_d → 4*hidden_d → hidden_d`. -/
structure BlockParams (H dh : ℕ) where
  g1 : Fin (H * dh) → ℝ
  s1 : Fin (H * dh) → ℝ
  heads : Fin H → HeadParams dh
  g2 : Fin (H * dh) → ℝ
  s2 : Fin (H * dh) → ℝ
  ffW1 : Matrix (Fin (4 * (H * dh))) (Fin (H * dh)) ℝ
  ffb1 : Fin (4 * (H * dh)) → ℝ
  ffW2 : Matrix (Fin (H * dh)) (Fin (4 * (H * dh))) ℝ
  ffb2 : Fin (H * dh) → ℝ

/-- Embedding of `MyViTBlock.forward` (deep_network.py lines 460-465):
`out = x + mhsa(norm1(x))`, then `out = out + mlp(norm2(out))` where
the mlp is Linear, GELU, Linear. -/
def blockForward {L H dh : ℕ} (p : BlockParams H dh)
    (x : Matrix (Fin L) (Fin (H * dh)) ℝ) : Matrix (Fin L) (Fin (H * dh)) ℝ :=
  let n1 : Matrix (Fin L) (Fin (H * dh)) ℝ := fun i j => layerNorm p.g1 p.s1 (x i) j
  let out1 : Matrix (Fin L) (Fin (H * dh)) ℝ := fun i j => x i j + msaForward p.heads n1 i j
  let n2 : Matrix (Fin L) (Fin (H * dh)) ℝ := fun i j => layerNorm p.g2 p.s2 (out1 i) j
  let ff : Matrix (Fin L) (Fin (H * dh)) ℝ := fun i j =>
    (∑ t, gelu ((∑ u, n2 i u * p.ffW1 t u) + p.ffb1 t) * p.ffW2 j t) + p.ffb2 j
  fun i j => out1 i j + ff i j

/-- Embedding of `MyViT.forward` (deep_network.py lines 167-204) for
one image of the batch: patchify, linear-map each patch to the hidden
dimension `H * dh`, prepend the learned classification token, add the
positional-embedding table, run the transformer blocks, keep only
sequence position 0 and map it through the classification
`nn.Sequential(nn.Linear(hidden_d, out_d), nn.Softmax(dim=-1))`.
`Cc` is the channel count and `h` the (square) image side, so each
flattened patch has length `Cc * (h/P) * (h/P)`. -/
def vitForward (Cc h P H dh od : ℕ)
    (mapW : Matrix (Fin (H * dh)) (Fin (Cc * (h / P) * (h / P))) ℝ) (mapb : Fin (H * dh) → ℝ)
    (clsTok : Fin (H * dh) → ℝ)
    (blocks : List (BlockParams H dh))
    (mlpW : Matrix (Fin od) (Fin (H * dh)) ℝ) (mlpb : Fin od → ℝ)
    (n : ℕ) (images : Tensor4) (idx : ℕ) : Fin od → ℝ :=
  let patches := patchify images n h P
  let tokens : Fin (P ^ 2) → Fin (H * dh) → ℝ := fun pIdx j =>
    (∑ t, patches idx pIdx.1 t.1 * mapW j t) + mapb j
  let withCls : Matrix (Fin (P ^ 2 + 1)) (Fin (H * dh)) ℝ := fun s j =>
    Fin.cases (motive := fun _ => ℝ) (clsTok j) (fun pp => tokens pp j) s
  let withPos : Matrix (Fin (P ^ 2 + 1)) (Fin (H * dh)) ℝ := fun s j =>
    withCls s j + get_positional_embeddings (P ^ 2 + 1) (H * dh) s.1 j.1
  let outSeq := blocks.foldl (fun acc b => blockForward b acc) withPos
  softmaxR (fun j => (∑ t, outSeq 0 t * mlpW j t) + mlpb j)

/-- The three model classes the `Trainer` dispatches on with
`isinstance` (deep_network.py lines 315-323 and 348-357). -/
inductive ModelKind where
  | cnn : ModelKind
  | mlp : ModelKind
  | vit : ModelKind
deriving DecidableEq

/-- The result of the Trainer's input preparation: either the flat
(N, D) array unchanged, or the (N, 1, W, H) image reshape. -/
inductive Reshaped where
  | flat (d : ℕ → ℕ → ℝ) : Reshaped
  | image (d : Tensor4) : Reshaped

/-- Embedding of the reshape dispatch in `Trainer.fit`
(deep_network.py lines 313-323): `W = H = int(np.sqrt(D))`; for CNN
and MyViT `assert W * H == D` (modelled as `none` when the assertion
fails) then `reshape(N, 1, W, H)`; for MLP the data is left flat.
Row-major reshape sends flat feature index `r * W + col` to pixel
(r, col) of the single channel. -/
def trainerFitReshape (kind : ModelKind) (N D : ℕ) (data : ℕ → ℕ → ℝ) : Option Reshaped :=
  let s := Nat.sqrt D
  match kind with
  | ModelKind.cnn =>
      if s * s = D then some (Reshaped.image (fun i _ch r col => data i (r * s + col))) else none
  | ModelKind.mlp => some (Reshaped.flat data)
  | ModelKind.vit =>
      if s * s = D then some (Reshaped.image (fun i _ch r col => data i (r * s + col))) else none

/-- Embedding of the identical reshape dispatch in `Trainer.predict`
(deep_network.py lines 346-357). -/
def trainerPredictReshape (kind : ModelKind) (N D : ℕ) (data : ℕ → ℕ → ℝ) : Option Reshaped :=
  let s := Nat.sqrt D
  match kind with
  | ModelKind.cnn =>
      if s * s = D then some (Reshaped.image (fun i _ch r col => data i (r * s + col))) else none
  | ModelKind.mlp => some (Reshaped.flat data)
  | ModelKind.vit =>
      if s * s = D then some (Reshaped.image (fun i _ch r col => data i (r * s + col))) else none

/-- Embedding of `np.mean(training_data, axis=0)` (pca.py line 43). -/
def colMean {N D : ℕ} (X : Matrix (Fin N) (Fin D) ℝ) : Fin D → ℝ :=
  fun j => (∑ i, X i j) / N

/-- Embedding of `training_data - self.mean` (pca.py line 45). -/
def center {N D : ℕ} (X : Matrix (Fin N) (Fin D) ℝ) : Matrix (Fin N) (Fin D) ℝ :=
  fun i j => X i j - colMean X j

/-- Embedding of `np.cov(Y, rowvar=False)` (pca.py line 47): columns
are the variables; numpy centers its input and divides by `N - 1`
(default `ddof=1`). -/
def npCov {N D : ℕ} (Y : Matrix (Fin N) (Fin D) ℝ) : Matrix (Fin D) (Fin D) ℝ :=
  fun j k => (∑ i, (Y i j - colMean Y j) * (Y i k - colMean Y k)) / ((N : ℝ) - 1)

/-- The output of the external routine `np.linalg.eigh`: a vector of
eigenvalues and a matrix whose columns are the eigenvectors. -/
structure Eigh (D : ℕ) where
  vals : Fin D → ℝ
  vecs : Matrix (Fin D) (Fin D) ℝ

/-- The contract of `np.linalg.eigh` on a symmetric matrix `C`: the
eigenvalues are in ascending order, each column `k` of `vecs` is an
eigenvector of `C` with eigenvalue `vals k`, and the eigenvectors are
unit vectors. -/
def IsEighOf {D : ℕ} (C : Matrix (Fin D) (Fin D) ℝ) (e : Eigh D) : Prop :=
  (∀ a b : Fin D, a ≤ b → e.vals a ≤ e.vals b) ∧
  (∀ k : Fin D, C.mulVec (fun i => e.vecs i k) = e.vals k • (fun i => e.vecs i k)) ∧
  (∀ k : Fin D, ∑ i, e.vecs i k ^ 2 = 1)

/-- Embedding of `PCA.find_principal_components` (pca.py lines 28-60):
mean, centering, covariance, eigendecomposition (the external
`np.linalg.eigh`, supplied as the function argument `eigh`), reversal
to descending order (`[::-1]`), then the numpy slices `eigvecs[:, :d]`
and `eigvals[:d]` — which silently truncate to `min d D` entries when
`d > D` — and the explained variance
`np.sum(eg) / np.sum(eigvals) * 100`.  Returns
(explained variance, mean, W). -/
def find_principal_components {N D : ℕ} (d : ℕ)
    (eigh : Matrix (Fin D) (Fin D) ℝ → Eigh D) (X : Matrix (Fin N) (Fin D) ℝ) :
    ℝ × (Fin D → ℝ) × Matrix (Fin D) (Fin (min d D)) ℝ :=
  let mean := colMean X
  let Xc := center X
  let C := npCov Xc
  let e := eigh C
  let kept : Fin (min d D) → ℝ := fun k => e.vals (Fin.castLE (min_le_right d D) k).rev
  let W : Matrix (Fin D) (Fin (min d D)) ℝ :=
    fun i k => e.vecs i (Fin.castLE (min_le_right d D) k).rev
  ((∑ k, kept k) / (∑ k, e.vals k) * 100, mean, W)

/-- Embedding of `PCA.reduce_dimension` (pca.py lines 62-73):
`(data - self.mean) @ self.W`.  `self.mean` and `self.W` are `None`
until `find_principal_components` runs (pca.py lines 24-26), and
numpy raises a `TypeError` on `array - None`, modelled as `none`. -/
def reduce_dimension {N D dW : ℕ} (mean : Option (Fin D → ℝ))
    (W : Option (Matrix (Fin D) (Fin dW) ℝ)) (data : Matrix (Fin N) (Fin D) ℝ) :
    Option (Matrix (Fin N) (Fin dW) ℝ) :=
  match mean, W with
  | some m, some w => some (fun i k => ∑ j, (data i j - m j) * w j k)
  | _, _ => none

/-- The value of `self.mean` right after `PCA.__init__` (pca.py line 24). -/
def pcaInitMean (D : ℕ) : Option (Fin D → ℝ) := none

/-- The value of `self.W` right after `PCA.__init__` (pca.py line 26). -/
def pcaInitW (D dW : ℕ) : Option (Matrix (Fin D) (Fin dW) ℝ) := none

/-- Head parameters with identity weight and zero bias for all three
projections (a concrete input for the attention divergence theorem). -/
def idHead : HeadParams 1 :=
  ⟨fun _ _ => 1, fun _ => 0, fun _ _ => 1, fun _ => 0, fun _ _ => 1, fun _ => 0⟩

/-- The concrete one-token input sequence `[[2.0]]`. -/
def twoSeq : Matrix (Fin 1) (Fin (1 * 1)) ℝ := fun _ _ => 2

/-- Concrete 2×2 training data `[[0, 0], [2, 0]]`: its covariance
matrix is diagonal `[[2, 0], [0, 0]]`. -/
def Xex : Matrix (Fin 2) (Fin 2) ℝ := Matrix.of ![![0, 0], ![2, 0]]

/-- A concrete eigendecomposition of `[[2, 0], [0, 0]]` in the
ascending-order convention of `np.linalg.eigh`: eigenvalues (0, 2)
with eigenvectors (0,1) and (1,0). -/
def eex : Eigh 2 := ⟨![0, 2], Matrix.of ![![0, 1], ![1, 0]]⟩

/-- An eigendecomposition routine that returns `eex` (used only at the
covariance matrix of `Xex`, where it satisfies `IsEighOf`). -/
def eighFunEx : Matrix (Fin 2) (Fin 2) ℝ → Eigh 2 := fun _ => eex

/-- Concrete 2×2 training data with zero variance: both rows equal
`[3, 3]`, so the covariance matrix is zero. -/
def Xzero : Matrix (Fin 2) (Fin 2) ℝ := fun _ _ => 3

/-- A concrete eigendecomposition of the zero matrix: eigenvalues
(0, 0), eigenvectors the identity. -/
def ezero : Eigh 2 := ⟨![0, 0], 1⟩

/-- An eigendecomposition routine returning `ezero` (used only at the
zero covariance matrix, where it satisfies `IsEighOf`). -/
def eighFunZero : Matrix (Fin 2) (Fin 2) ℝ → Eigh 2 := fun _ => ezero

/-- A concrete image batch with distinct pixel values, used by the
patchify witnesses. -/
def imgEx : Tensor4 := fun a b c d => (a : ℝ) + 2 * b + 3 * c + 4 * d

/-- A concrete flat (N, D) data array, used by the trainer reshape
witness. -/
def flatEx : ℕ → ℕ → ℝ := fun i j => (i : ℝ) + j

/-- Reading any cell that none of the writes of a fold touches gives
back the accumulator. -/
theorem foldl_writeRow_ne (idx : ℕ) (key : ℕ → ℕ) (row : ℕ → ℕ → ℝ)
    (l : List ℕ) (acc : Tensor3) (idx' p' k : ℕ)
    (h : idx' ≠ idx ∨ ∀ j ∈ l, p' ≠ key j) :
    l.foldl (fun a j => writeRow a idx (key j) (row j)) acc idx' p' k = acc idx' p' k := by
  induction l generalizing acc with
  | nil => rfl
  | cons j t ih =>
    rw [List.foldl_cons]
    rw [ih (writeRow acc idx (key j) (row j))]
    · show (if idx' = idx ∧ p' = key j then row j k else acc idx' p' k) = acc idx' p' k
      rcases h with h | h
      · rw [if_neg (fun hc => h hc.1)]
      · rw [if_neg (fun hc => h j (List.mem_cons_self j t) hc.2)]
    · rcases h with h | h
      · exact Or.inl h
      · exact Or.inr fun x hx => h x (List.mem_cons_of_mem j hx)

/-- Reading the cell written for `j₀` gives the written row, provided
the fold's keys are distinct. -/
theorem foldl_writeRow_eq (idx : ℕ) (key : ℕ → ℕ) (row : ℕ → ℕ → ℝ)
    (l : List ℕ) (hl : l.Nodup) (acc : Tensor3) (j₀ : ℕ) (hmem : j₀ ∈ l)
    (hinj : ∀ a ∈ l, ∀ b ∈ l, key a = key b → a = b) (k : ℕ) :
    l.foldl (fun a j => writeRow a idx (key j) (row j)) acc idx (key j₀) k = row j₀ k := by
  induction l generalizing acc with
  | nil => cases hmem
  | cons j t ih =>
    rw [List.foldl_cons]
    rcases List.mem_cons.mp hmem with rfl | hmem'
    · rw [foldl_writeRow_ne]
      · show (if idx = idx ∧ key j₀ = key j₀ then row j₀ k else acc idx (key j₀) k) = row j₀ k
        rw [if_pos ⟨rfl, rfl⟩]
      · refine Or.inr fun x hx hkey => ?_
        have hx' : x = j₀ :=
          hinj x (List.mem_cons_of_mem j₀ hx) j₀ (List.mem_cons_self j₀ t) hkey.symm
        exact (List.nodup_cons.mp hl).1 (hx' ▸ hx)
    · exact ih (List.nodup_cons.mp hl).2 _ hmem'
        (fun a ha b hb => hinj a (List.mem_cons_of_mem j ha) b (List.mem_cons_of_mem j hb))

/-- Decoding a row-major grid key: `i*P + j` with `j < P` determines
`i` and `j`. -/
theorem grid_key_inj (P i i' j j' : ℕ) (hj : j < P) (hj' : j' < P)
    (h : i * P + j = i' * P + j') : i = i' ∧ j = j' := by
  have hP : 0 < P := Nat.lt_of_le_of_lt (Nat.zero_le j) hj
  have e1 : (i * P + j) / P = i := by
    rw [Nat.mul_comm, Nat.mul_add_div hP, Nat.div_eq_of_lt hj, Nat.add_zero]
  have e2 : (i' * P + j') / P = i' := by
    rw [Nat.mul_comm, Nat.mul_add_div hP, Nat.div_eq_of_lt hj', Nat.add_zero]
  have hi : i = i' := by rw [← e1, ← e2, h]
  refine ⟨hi, ?_⟩
  subst hi
  exact Nat.add_left_cancel h

/-- The inner `j`-loop of `patchify` leaves all cells outside its own
grid row (or outside its image index) unchanged. -/
theorem patchLoopJ_ne (images : Tensor4) (ps P idx i : ℕ) (acc : Tensor3)
    (idx' p' k : ℕ) (h : idx' ≠ idx ∨ ∀ j < P, p' ≠ i * P + j) :
    patchLoopJ images ps P idx i acc idx' p' k = acc idx' p' k := by
  refine foldl_writeRow_ne idx (fun j => i * P + j)
    (fun j => flatten3 (sliceP (images idx) ps i j) ps ps) (List.range P) acc idx' p' k ?_
  rcases h with h | h
  · exact Or.inl h
  · exact Or.inr fun j hj => h j (List.mem_range.mp hj)

/-- The inner `j`-loop of `patchify` writes the flattened (i, j) patch
at sequence position `i*P + j`. -/
theorem patchLoopJ_eq (images : Tensor4) (ps P idx i : ℕ) (acc : Tensor3)
    (j : ℕ) (hj : j < P) (k : ℕ) :
    patchLoopJ images ps P idx i acc idx (i * P + j) k
      = flatten3 (sliceP (images idx) ps i j) ps ps k := by
  refine foldl_writeRow_eq idx (fun j => i * P + j)
    (fun j => flatten3 (sliceP (images idx) ps i j) ps ps) (List.range P)
    (List.nodup_range P) acc j (List.mem_range.mpr hj) ?_ k
  intro a ha b hb hab
  exact (grid_key_inj P i i a b (List.mem_range.mp ha) (List.mem_range.mp hb) hab).2

/-- The middle `i`-loop of `patchify` leaves cells of other image
indices, or cells at no grid position of its rows, unchanged. -/
theorem patchLoopI_ne (images : Tensor4) (ps P idx : ℕ) (l : List ℕ) (acc : Tensor3)
    (idx' p' k : ℕ) (h : idx' ≠ idx ∨ ∀ i ∈ l, ∀ j < P, p' ≠ i * P + j) :
    l.foldl (fun a i => patchLoopJ images ps P idx i a) acc idx' p' k = acc idx' p' k := by
  induction l generalizing acc with
  | nil => rfl
  | cons i t ih =>
    rw [List.foldl_cons]
    rw [ih (patchLoopJ images ps P idx i acc)]
    · refine patchLoopJ_ne images ps P idx i acc idx' p' k ?_
      rcases h with h | h
      · exact Or.inl h
      · exact Or.inr fun j hj => h i (List.mem_cons_self i t) j hj
    · rcases h with h | h
      · exact Or.inl h
      · exact Or.inr fun x hx => h x (List.mem_cons_of_mem i hx)

/-- The middle `i`-loop of `patchify` writes the flattened (i, j)
patch at sequence position `i*P + j`, provided the grid rows it
processes are distinct. -/
theorem patchLoopI_eq (images : Tensor4) (ps P idx : ℕ) (l : List ℕ) (hl : l.Nodup)
    (acc : Tensor3) (i : ℕ) (hmem : i ∈ l) (j : ℕ) (hj : j < P) (k : ℕ) :
    l.foldl (fun a i => patchLoopJ images ps P idx i a) acc idx (i * P + j) k
      = flatten3 (sliceP (images idx) ps i j) ps ps k := by
  induction l generalizing acc with
  | nil => cases hmem
  | cons i' t ih =>
    rw [List.foldl_cons]
    rcases List.mem_cons.mp hmem with rfl | hmem'
    · rw [patchLoopI_ne]
      · exact patchLoopJ_eq images ps P idx i acc j hj k
      · refine Or.inr fun x hx j' hj' hkey => ?_
        have : i = x := (grid_key_inj P i x j j' hj hj' hkey).1
        exact (List.nodup_cons.mp hl).1 (this ▸ hx)
    · exact ih (List.nodup_cons.mp hl).2 _ hmem'

/-- The outer loop over images leaves every cell of an image index it
does not process unchanged. -/
theorem patchTop_ne (images : Tensor4) (ps P : ℕ) (l : List ℕ) (acc : Tensor3)
    (idx' p' k : ℕ) (h : ∀ x ∈ l, idx' ≠ x) :
    l.foldl (fun a ix => patchLoopI images ps P ix a) acc idx' p' k = acc idx' p' k := by
  induction l generalizing acc with
  | nil => rfl
  | cons x t ih =>
    rw [List.foldl_cons]
    rw [ih (patchLoopI images ps P x acc) (fun y hy => h y (List.mem_cons_of_mem x hy))]
    exact patchLoopI_ne images ps P x (List.range P) acc idx' p' k
      (Or.inl (h x (List.mem_cons_self x t)))

/-- Closed form of `patchify`: for an in-range image index and grid
cell (i, j), the stored row is the flattened slice of that cell. -/
theorem patchify_closed (images : Tensor4) (n h P : ℕ) (idx : ℕ) (hidx : idx < n)
    (i : ℕ) (hi : i < P) (j : ℕ) (hj : j < P) (k : ℕ) :
    patchify images n h P idx (i * P + j) k
      = flatten3 (sliceP (images idx) (h / P) i j) (h / P) (h / P) k := by
  unfold patchify
  have main : ∀ (l : List ℕ), l.Nodup → ∀ (acc : Tensor3), idx ∈ l →
      l.foldl (fun a ix => patchLoopI images (h / P) P ix a) acc idx (i * P + j) k
        = flatten3 (sliceP (images idx) (h / P) i j) (h / P) (h / P) k := by
    intro l
    induction l with
    | nil => intro _ _ hmem; cases hmem
    | cons x t ih =>
      intro hl acc hmem
      rw [List.foldl_cons]
      rcases List.mem_cons.mp hmem with rfl | hmem'
      · rw [patchTop_ne images (h / P) P t _ idx _ k
          (fun y hy hc => (List.nodup_cons.mp hl).1 (hc ▸ hy))]
        exact patchLoopI_eq images (h / P) P idx (List.range P) (List.nodup_range P) acc i
          (List.mem_range.mpr hi) j hj k
      · exact ih (List.nodup_cons.mp hl).2 _ hmem'
  exact main (List.range n) (List.nodup_range n) _ (List.mem_range.mpr hidx)

/-- C6: for every image batch with H == W and H divisible by
n_patches, the row of `patchify`'s output at sequence position
`i*n_patches + j` is exactly the sub-block spanning rows
[i*s, (i+1)*s) and columns [j*s, (j+1)*s) (s = H/n_patches) across all
channels, flattened channel-major, then row-major, then column-major:
flat position `ch*s*s + r*s + col` holds pixel
`images idx ch (i*s + r) (j*s + col)`. -/
theorem patchify_row_content (images : Tensor4) (n h P s : ℕ) (hs : h = P * s)
    (idx i j ch r col k : ℕ) (hidx : idx < n) (hi : i < P) (hj : j < P)
    (hr : r < s) (hcol : col < s) (hk : k = ch * (s * s) + r * s + col) :
    patchify images n h P idx (i * P + j) k = images idx ch (i * s + r) (j * s + col) := by
  have hP : 0 < P := Nat.lt_of_le_of_lt (Nat.zero_le i) hi
  have hs0 : 0 < s := Nat.lt_of_le_of_lt (Nat.zero_le r) hr
  have hps : h / P = s := by rw [hs, Nat.mul_div_cancel_left s hP]
  rw [patchify_closed images n h P idx hidx i hi j hj k, hps]
  have hss : 0 < s * s := Nat.mul_pos hs0 hs0
  have hlt : r * s + col < s * s := by
    calc r * s + col < r * s + s := by omega
      _ = (r + 1) * s := by ring
      _ ≤ s * s := Nat.mul_le_mul_right s hr
  have h1 : k / (s * s) = ch := by
    rw [hk, Nat.add_assoc, Nat.mul_comm ch (s * s), Nat.mul_add_div hss,
      Nat.div_eq_of_lt hlt, Nat.add_zero]
  have h2 : k % (s * s) = r * s + col := by
    rw [hk, Nat.add_assoc, Nat.mul_comm ch (s * s), Nat.mul_add_mod,
      Nat.mod_eq_of_lt hlt]
  have h3 : k % (s * s) / s = r := by
    rw [h2, Nat.mul_comm r s, Nat.mul_add_div hs0, Nat.div_eq_of_lt hcol, Nat.add_zero]
  have h4 : k % s = col := by
    rw [hk, Nat.add_assoc]
    have : ch * (s * s) = ch * s * s := by ring
    rw [this, Nat.mul_comm (ch * s) s, Nat.mul_add_mod, Nat.mul_comm r s, Nat.mul_add_mod,
      Nat.mod_eq_of_lt hcol]
  show images idx (k / (s * s)) (i * s + k % (s * s) / s) (j * s + k % s) = _
  rw [h1, h3, h4]

/-- Witness for the patchify row-content theorem at a concrete input:
a single 2×2 single-channel image split into four 1×1 patches. -/
theorem patchify_row_content_witness :
    (2 = 2 * 1 ∧ 0 < 1 ∧ 0 < 2 ∧ 1 < 2 ∧ 0 < 1 ∧ 0 < 1 ∧ 0 = 0 * (1 * 1) + 0 * 1 + 0) ∧
    patchify imgEx 1 2 2 0 (0 * 2 + 1) 0 = imgEx 0 0 (0 * 1 + 0) (1 * 1 + 0) :=
  ⟨by norm_num,
    patchify_row_content imgEx 1 2 2 1 (by norm_num) 0 0 1 0 0 0 0 (by norm_num) (by norm_num)
      (by norm_num) (by norm_num) (by norm_num) (by norm_num)⟩

/-- C2: patchify loses no information.  For every image batch with
H == W and H divisible by n_patches, placing each row of `patchify`'s
output back into its grid cell (the `reassemble` procedure of the
claim) reconstructs the original image batch exactly at every in-range
pixel. -/
theorem patchify_roundtrip (images : Tensor4) (n h P s : ℕ) (hs : h = P * s)
    (idx ch r col : ℕ) (hidx : idx < n) (hP : 0 < P) (hs0 : 0 < s)
    (hr : r < h) (hcol : col < h) :
    reassemble (patchify images n h P) P s idx ch r col = images idx ch r col := by
  have hrs : r / s < P := Nat.div_lt_of_lt_mul (by rw [Nat.mul_comm s P, ← hs]; exact hr)
  have hcs : col / s < P := Nat.div_lt_of_lt_mul (by rw [Nat.mul_comm s P, ← hs]; exact hcol)
  show patchify images n h P idx (r / s * P + col / s)
      (ch * (s * s) + r % s * s + col % s) = images idx ch r col
  rw [patchify_row_content images n h P s hs idx (r / s) (col / s) ch (r % s) (col % s)
    (ch * (s * s) + r % s * s + col % s) hidx hrs hcs (Nat.mod_lt r hs0) (Nat.mod_lt col hs0)
    rfl]
  rw [Nat.mul_comm (r / s) s, Nat.mul_comm (col / s) s, Nat.div_add_mod r s,
    Nat.div_add_mod col s]

/-- Witness for the patchify round-trip theorem at a concrete input:
a 2×2 single-channel image split into four 1×1 patches, read back at
pixel (1, 0). -/
theorem patchify_roundtrip_witness :
    (2 = 2 * 1 ∧ 0 < 1 ∧ 0 < 2 ∧ 0 < 1 ∧ 1 < 2 ∧ 0 < 2) ∧
    reassemble (patchify imgEx 1 2 2) 2 1 0 0 1 0 = imgEx 0 0 1 0 :=
  ⟨by norm_num,
    patchify_roundtrip imgEx 1 2 2 1 (by norm_num) 0 0 1 0 (by norm_num) (by norm_num)
      (by norm_num) (by norm_num) (by norm_num)⟩

/-- C7: for every in-range row i, the positional-embedding table has
`sin(i / 10000^(2k/d))` in even column 2k and `cos(i / 10000^(2k/d))`
in odd column 2k+1 — the odd column reuses the even column's exponent,
so each sine/cosine pair shares one frequency. -/
theorem posEmb_pair (L d i k : ℕ) (hi : i < L) :
    (2 * k < d →
      get_positional_embeddings L d i (2 * k)
        = Real.sin ((i : ℝ) / (10000 : ℝ) ^ (((2 * k : ℕ) : ℝ) / (d : ℝ)))) ∧
    (2 * k + 1 < d →
      get_positional_embeddings L d i (2 * k + 1)
        = Real.cos ((i : ℝ) / (10000 : ℝ) ^ (((2 * k : ℕ) : ℝ) / (d : ℝ)))) := by
  constructor
  · intro hj
    unfold get_positional_embeddings
    rw [if_pos ⟨hi, hj⟩, if_pos (by omega)]
  · intro hj
    unfold get_positional_embeddings
    rw [if_pos ⟨hi, hj⟩, if_neg (by omega)]
    have : ((2 * k + 1 : ℕ) : ℝ) - 1 = ((2 * k : ℕ) : ℝ) := by push_cast; ring
    rw [this]

/-- Witness for the positional-embedding pairing theorem: row 1 of a
2×4 table, pair k = 0 (columns 0 and 1). -/
theorem posEmb_pair_witness :
    (1 < 2) ∧
    ((2 * 0 < 4 →
      get_positional_embeddings 2 4 1 (2 * 0)
        = Real.sin (((1 : ℕ) : ℝ) / (10000 : ℝ) ^ (((2 * 0 : ℕ) : ℝ) / ((4 : ℕ) : ℝ)))) ∧
    (2 * 0 + 1 < 4 →
      get_positional_embeddings 2 4 1 (2 * 0 + 1)
        = Real.cos (((1 : ℕ) : ℝ) / (10000 : ℝ) ^ (((2 * 0 : ℕ) : ℝ) / ((4 : ℕ) : ℝ))))) :=
  ⟨by norm_num, posEmb_pair 2 4 1 0 (by norm_num)⟩

/-- C9: the two textual definitions of `get_positional_embeddings` in
the source (the second shadows the first in Python) are extensionally
equal, so implementing the routine once is behaviourally equivalent. -/
theorem posEmb_duplicate_defs_agree :
    ∀ (L d i j : ℕ),
      get_positional_embeddings_redef L d i j = get_positional_embeddings L d i j :=
  fun _ _ _ _ => rfl

/-- C1 (code bug): `MyMSA.forward` does not apply softmax to the
scaled scores.  On the one-token sequence [[2]] with d = 1, one head,
identity projection weights and zero biases, the code returns
(Q·Kᵀ/√1)·V = 4·2 = 8, while the computation the claim and spec
describe, softmax(Q·Kᵀ/√1)·V, returns 1·2 = 2. -/
theorem msa_softmax_missing :
    msaForward (fun _ : Fin 1 => idHead) twoSeq 0 0 = 8
  ∧ msaForwardSpec (fun _ : Fin 1 => idHead) twoSeq 0 0 = 2
  ∧ (8 : ℝ) ≠ 2 := by
  refine ⟨?_, ?_, by norm_num⟩
  · simp [msaForward, msaHead, headSlice, linearApply, idHead, twoSeq, Real.sqrt_one]
    norm_num
  · simp [msaForwardSpec, msaHeadSpec, headSlice, linearApply, idHead, twoSeq, softmaxR,
      Real.sqrt_one]

/-- The row-wise softmax of any real score vector of positive length
sums to 1. -/
theorem softmaxR_sum_one {m : ℕ} (hm : 0 < m) (v : Fin m → ℝ) :
    ∑ j, softmaxR v j = 1 := by
  have : Nonempty (Fin m) := ⟨⟨0, hm⟩⟩
  have hpos : (0 : ℝ) < ∑ i, Real.exp (v i) :=
    Finset.sum_pos (fun i _ => Real.exp_pos _) Finset.univ_nonempty
  unfold softmaxR
  rw [← Finset.sum_div, div_self (ne_of_gt hpos)]

/-- Every entry of the row-wise softmax is nonnegative. -/
theorem softmaxR_nonneg {m : ℕ} (v : Fin m → ℝ) (j : Fin m) : 0 ≤ softmaxR v j := by
  unfold softmaxR
  exact div_nonneg (Real.exp_pos _).le (Finset.sum_nonneg fun i _ => (Real.exp_pos _).le)

/-- C3: for every image batch and every choice of learned parameters,
`MyViT.forward` returns a probability distribution per row: the
classification head applies a linear layer followed by softmax to the
transformed sequence-position-0 token, so every entry is nonnegative
and each row sums to 1 — probabilities, not raw logits. -/
theorem vit_output_is_distribution (Cc h P H dh od : ℕ) (hod : 0 < od)
    (mapW : Matrix (Fin (H * dh)) (Fin (Cc * (h / P) * (h / P))) ℝ) (mapb : Fin (H * dh) → ℝ)
    (clsTok : Fin (H * dh) → ℝ) (blocks : List (BlockParams H dh))
    (mlpW : Matrix (Fin od) (Fin (H * dh)) ℝ) (mlpb : Fin od → ℝ)
    (n : ℕ) (images : Tensor4) (idx : ℕ) :
    (∀ j, 0 ≤ vitForward Cc h P H dh od mapW mapb clsTok blocks mlpW mlpb n images idx j)
  ∧ ∑ j, vitForward Cc h P H dh od mapW mapb clsTok blocks mlpW mlpb n images idx j = 1 := by
  unfold vitForward
  exact ⟨fun j => softmaxR_nonneg _ j, softmaxR_sum_one hod _⟩

/-- Witness for the MyViT distribution theorem at a concrete
instantiation: 1×1 single-channel images, one patch, one head of
dimension 1, no transformer blocks, one output class, zero weights. -/
theorem vit_output_is_distribution_witness :
    (0 < 1) ∧
    ((∀ j, 0 ≤ vitForward 1 1 1 1 1 1 (fun _ _ => 0) (fun _ => 0) (fun _ => 0) []
        (fun _ _ => 0) (fun _ => 0) 1 (fun _ _ _ _ => 0) 0 j)
    ∧ ∑ j, vitForward 1 1 1 1 1 1 (fun _ _ => 0) (fun _ => 0) (fun _ => 0) []
        (fun _ _ => 0) (fun _ => 0) 1 (fun _ _ _ _ => 0) 0 j = 1) :=
  ⟨by norm_num,
    vit_output_is_distribution 1 1 1 1 1 1 (by norm_num) (fun _ _ => 0) (fun _ => 0)
      (fun _ => 0) [] (fun _ _ => 0) (fun _ => 0) 1 (fun _ _ _ _ => 0) 0⟩

/-- C10: for a CNN or MyViT model, both `Trainer.fit` and
`Trainer.predict` infer the spatial side as s = int(√D), succeed
exactly when D is a perfect square (otherwise the `assert W * H == D`
fails), and reshape the flat data to (N, 1, s, s) — a single
hard-coded channel, with flat feature index r*s + col landing at pixel
(r, col); the caller passes no channel-count or spatial-size metadata. -/
theorem trainer_reshape_dispatch (kind : ModelKind) (hk : kind ≠ ModelKind.mlp)
    (N D : ℕ) (data : ℕ → ℕ → ℝ) :
    ((∃ s, s * s = D) ↔ Nat.sqrt D * Nat.sqrt D = D)
  ∧ (Nat.sqrt D * Nat.sqrt D = D →
      trainerFitReshape kind N D data
        = some (Reshaped.image (fun i _ch r col => data i (r * Nat.sqrt D + col)))
    ∧ trainerPredictReshape kind N D data
        = some (Reshaped.image (fun i _ch r col => data i (r * Nat.sqrt D + col))))
  ∧ (Nat.sqrt D * Nat.sqrt D ≠ D →
      trainerFitReshape kind N D data = none
    ∧ trainerPredictReshape kind N D data = none) := by
  refine ⟨Nat.exists_mul_self D, ?_, ?_⟩
  · intro hsq
    cases kind with
    | cnn => exact ⟨by simp [trainerFitReshape, hsq], by simp [trainerPredictReshape, hsq]⟩
    | mlp => exact absurd rfl hk
    | vit => exact ⟨by simp [trainerFitReshape, hsq], by simp [trainerPredictReshape, hsq]⟩
  · intro hsq
    cases kind with
    | cnn => exact ⟨by simp [trainerFitReshape, hsq], by simp [trainerPredictReshape, hsq]⟩
    | mlp => exact absurd rfl hk
    | vit => exact ⟨by simp [trainerFitReshape, hsq], by simp [trainerPredictReshape, hsq]⟩

/-- Witness for the trainer reshape theorem: a CNN model with D = 4
(perfect square, side 2). -/
theorem trainer_reshape_dispatch_witness :
    (ModelKind.cnn ≠ ModelKind.mlp) ∧
    (((∃ s, s * s = 4) ↔ Nat.sqrt 4 * Nat.sqrt 4 = 4)
  ∧ (Nat.sqrt 4 * Nat.sqrt 4 = 4 →
      trainerFitReshape ModelKind.cnn 1 4 flatEx
        = some (Reshaped.image (fun i _ch r col => flatEx i (r * Nat.sqrt 4 + col)))
    ∧ trainerPredictReshape ModelKind.cnn 1 4 flatEx
        = some (Reshaped.image (fun i _ch r col => flatEx i (r * Nat.sqrt 4 + col))))
  ∧ (Nat.sqrt 4 * Nat.sqrt 4 ≠ 4 →
      trainerFitReshape ModelKind.cnn 1 4 flatEx = none
    ∧ trainerPredictReshape ModelKind.cnn 1 4 flatEx = none)) :=
  ⟨by decide, trainer_reshape_dispatch ModelKind.cnn (by decide) 1 4 flatEx⟩

/-- C5: calling `PCA.reduce_dimension` on a freshly constructed PCA
object (state UNFITTED: `self.mean` and `self.W` are both `None`)
fails for every data array — numpy raises on `data - None` — and
never returns a value. -/
theorem reduce_dimension_unfitted_fails :
    ∀ (N D dW : ℕ) (data : Matrix (Fin N) (Fin D) ℝ),
      reduce_dimension (pcaInitMean D) (pcaInitW D dW) data = none :=
  fun _ _ _ _ => rfl

/-- Rearranging the quadratic form of a Gram-matrix-style double sum
into a sum of squares. -/
theorem sum_quad_sq {N D : ℕ} (Z : Matrix (Fin N) (Fin D) ℝ) (u : Fin D → ℝ) :
    ∑ i, u i * ∑ k, (∑ t, Z t i * Z t k) * u k
      = ∑ t, (∑ i, Z t i * u i) ^ 2 := by
  calc ∑ i, u i * ∑ k, (∑ t, Z t i * Z t k) * u k
      = ∑ i, ∑ k, ∑ t, (Z t i * u i) * (Z t k * u k) := by
        refine Finset.sum_congr rfl fun i _ => ?_
        rw [Finset.mul_sum]
        refine Finset.sum_congr rfl fun k _ => ?_
        rw [Finset.sum_mul, Finset.mul_sum]
        exact Finset.sum_congr rfl fun t _ => by ring
    _ = ∑ t, ∑ i, ∑ k, (Z t i * u i) * (Z t k * u k) := by
        rw [show (∑ i, ∑ k, ∑ t, (Z t i * u i) * (Z t k * u k))
            = ∑ i, ∑ t, ∑ k, (Z t i * u i) * (Z t k * u k) from
          Finset.sum_congr rfl fun i _ => Finset.sum_comm]
        exact Finset.sum_comm
    _ = ∑ t, (∑ i, Z t i * u i) * (∑ k, Z t k * u k) := by
        refine Finset.sum_congr rfl fun t _ => (Finset.sum_mul_sum _ _ _ _).symm
    _ = ∑ t, (∑ i, Z t i * u i) ^ 2 := by
        refine Finset.sum_congr rfl fun t _ => by rw [pow_two]

/-- The quadratic form of the numpy covariance matrix is a scaled sum
of squares. -/
theorem npCov_mulVec_quad {N D : ℕ} (Y : Matrix (Fin N) (Fin D) ℝ) (u : Fin D → ℝ) :
    ∑ i, u i * (npCov Y).mulVec u i
      = (∑ t, (∑ i, (Y t i - colMean Y i) * u i) ^ 2) / ((N : ℝ) - 1) := by
  have h1 : ∀ i, (npCov Y).mulVec u i
      = (∑ k, (∑ t, (Y t i - colMean Y i) * (Y t k - colMean Y k)) * u k) / ((N : ℝ) - 1) := by
    intro i
    simp only [Matrix.mulVec, Matrix.dotProduct, npCov]
    simp only [div_mul_eq_mul_div]
    rw [← Finset.sum_div]
  calc ∑ i, u i * (npCov Y).mulVec u i
      = (∑ i, u i * ∑ k, (∑ t, (Y t i - colMean Y i) * (Y t k - colMean Y k)) * u k)
          / ((N : ℝ) - 1) := by
        simp only [h1, mul_div_assoc']
        rw [← Finset.sum_div]
    _ = (∑ t, (∑ i, (Y t i - colMean Y i) * u i) ^ 2) / ((N : ℝ) - 1) := by
        rw [sum_quad_sq (fun t i => Y t i - colMean Y i) u]

/-- The numpy covariance matrix is positive semidefinite (for N = 0
the form is identically zero, for N ≥ 1 the scale 1/(N-1) is
nonnegative in the total real semantics). -/
theorem npCov_quad_nonneg {N D : ℕ} (Y : Matrix (Fin N) (Fin D) ℝ) (u : Fin D → ℝ) :
    0 ≤ ∑ i, u i * (npCov Y).mulVec u i := by
  rw [npCov_mulVec_quad]
  rcases Nat.eq_zero_or_pos N with hN | hN
  · subst hN
    simp
  · have hc : (0 : ℝ) ≤ (N : ℝ) - 1 := by
      have h1 : (1 : ℝ) ≤ (N : ℝ) := by exact_mod_cast hN
      linarith
    exact div_nonneg (Finset.sum_nonneg fun t _ => sq_nonneg _) hc

/-- Every eigenvalue reported by an eigendecomposition of a covariance
matrix is nonnegative: unit eigenvector u gives
vals = uᵀ (npCov Y) u ≥ 0. -/
theorem eigh_vals_nonneg {N D : ℕ} (Y : Matrix (Fin N) (Fin D) ℝ) (e : Eigh D)
    (he : IsEighOf (npCov Y) e) (k : Fin D) : 0 ≤ e.vals k := by
  have hvec := he.2.1 k
  have hnorm := he.2.2 k
  have key : ∑ i, e.vecs i k * (npCov Y).mulVec (fun i => e.vecs i k) i = e.vals k := by
    rw [hvec]
    simp only [Pi.smul_apply, smul_eq_mul]
    calc ∑ i, e.vecs i k * (e.vals k * e.vecs i k)
        = e.vals k * ∑ i, e.vecs i k ^ 2 := by
          rw [Finset.mul_sum]
          exact Finset.sum_congr rfl fun i _ => by ring
      _ = e.vals k := by rw [hnorm, mul_one]
  rw [← key]
  exact npCov_quad_nonneg Y _

/-- The sum of the kept (reversed, truncated) eigenvalues is at most
the sum of all eigenvalues when all eigenvalues are nonnegative. -/
theorem kept_sum_le {D : ℕ} (e : Eigh D) (hpos : ∀ k, 0 ≤ e.vals k) (d : ℕ) :
    ∑ k : Fin (min d D), e.vals (Fin.castLE (min_le_right d D) k).rev ≤ ∑ k, e.vals k := by
  have hinj : Function.Injective fun k : Fin (min d D) =>
      (Fin.castLE (min_le_right d D) k).rev :=
    fun a b hab => Fin.castLE_injective _ (Fin.rev_injective hab)
  calc (∑ k : Fin (min d D), e.vals (Fin.castLE (min_le_right d D) k).rev)
      = ∑ j in Finset.univ.image (fun k : Fin (min d D) =>
          (Fin.castLE (min_le_right d D) k).rev), e.vals j :=
        (Finset.sum_image fun a _ b _ h => hinj h).symm
    _ ≤ ∑ j, e.vals j :=
        Finset.sum_le_sum_of_subset_of_nonneg (Finset.subset_univ _) fun j _ _ => hpos j

/-- When d ≥ D the kept slice covers every eigenvalue, so the kept sum
equals the total. -/
theorem kept_sum_eq {D : ℕ} (e : Eigh D) (d : ℕ) (hDd : D ≤ d) :
    ∑ k : Fin (min d D), e.vals (Fin.castLE (min_le_right d D) k).rev = ∑ k, e.vals k := by
  have hinj : Function.Injective fun k : Fin (min d D) =>
      (Fin.castLE (min_le_right d D) k).rev :=
    fun a b hab => Fin.castLE_injective _ (Fin.rev_injective hab)
  have hcard : Fintype.card (Fin (min d D)) = Fintype.card (Fin D) := by
    simp [min_eq_right hDd]
  have hbij := (Fintype.bijective_iff_injective_and_card _).mpr ⟨hinj, hcard⟩
  exact hbij.sum_comp e.vals

/-- The covariance matrix of the concrete data `Xex` is
[[2, 0], [0, 0]]. -/
theorem covXex : npCov (center Xex) = Matrix.of ![![2, 0], ![0, 0]] := by
  ext i j
  fin_cases i <;> fin_cases j <;>
    norm_num [npCov, center, colMean, Xex, Fin.sum_univ_two]

/-- The concrete `eex` is a valid `np.linalg.eigh` output for the
covariance matrix of `Xex`. -/
theorem eighXex : IsEighOf (npCov (center Xex)) eex := by
  rw [covXex]
  refine ⟨?_, ?_, ?_⟩
  · intro a b hab
    fin_cases a <;> fin_cases b <;> simp_all [eex]
  · intro k
    funext i
    fin_cases k <;> fin_cases i <;>
      simp [eex, Matrix.mulVec, Matrix.dotProduct, Fin.sum_univ_two]
  · intro k
    fin_cases k <;> simp [eex, Fin.sum_univ_two]

/-- The covariance matrix of the zero-variance data `Xzero` is zero. -/
theorem covXzero : npCov (center Xzero) = 0 := by
  ext i j
  simp [npCov, center, colMean, Xzero, Fin.sum_univ_two]

/-- The concrete `ezero` is a valid `np.linalg.eigh` output for the
zero covariance matrix of `Xzero`. -/
theorem eighXzero : IsEighOf (npCov (center Xzero)) ezero := by
  rw [covXzero]
  refine ⟨?_, ?_, ?_⟩
  · intro a b hab
    fin_cases a <;> fin_cases b <;> simp_all [ezero]
  · intro k
    funext i
    fin_cases k <;> simp [ezero, Matrix.mulVec, Matrix.dotProduct]
  · intro k
    fin_cases k <;> simp [ezero, Fin.sum_univ_two, Matrix.one_apply]

/-- C8 (amended): for every training array and every 1 ≤ d ≤ D, the
explained variance returned by `find_principal_components` lies in
[0, 100]; and when d = D it equals 100 PROVIDED the total variance
(the eigenvalue sum, the divisor in the source) is nonzero.  For
zero-variance data the quotient is 0/0 — nan in numpy, 0 in the total
real semantics — not 100, which is the amendment the counterexample
forces. -/
theorem exvar_in_range {N D : ℕ} (d : ℕ) (hd1 : 1 ≤ d) (hd2 : d ≤ D)
    (eigh : Matrix (Fin D) (Fin D) ℝ → Eigh D) (X : Matrix (Fin N) (Fin D) ℝ)
    (he : IsEighOf (npCov (center X)) (eigh (npCov (center X)))) :
    0 ≤ (find_principal_components d eigh X).1
  ∧ (find_principal_components d eigh X).1 ≤ 100
  ∧ (d = D → (∑ k, (eigh (npCov (center X))).vals k) ≠ 0 →
      (find_principal_components d eigh X).1 = 100) := by
  have hfst : (find_principal_components d eigh X).1
      = (∑ k : Fin (min d D),
          (eigh (npCov (center X))).vals (Fin.castLE (min_le_right d D) k).rev)
        / (∑ k, (eigh (npCov (center X))).vals k) * 100 := rfl
  set e := eigh (npCov (center X)) with hE
  have hpos : ∀ k, 0 ≤ e.vals k := eigh_vals_nonneg (center X) e he
  have hS : (0:ℝ) ≤ ∑ k : Fin (min d D), e.vals (Fin.castLE (min_le_right d D) k).rev :=
    Finset.sum_nonneg fun k _ => hpos _
  have hT : (0:ℝ) ≤ ∑ k, e.vals k := Finset.sum_nonneg fun k _ => hpos _
  refine ⟨?_, ?_, ?_⟩
  · rw [hfst]
    exact mul_nonneg (div_nonneg hS hT) (by norm_num)
  · rw [hfst]
    rcases eq_or_ne (∑ k, e.vals k) 0 with h0 | h0
    · rw [h0, div_zero, zero_mul]
      norm_num
    · have hTpos : (0:ℝ) < ∑ k, e.vals k := lt_of_le_of_ne hT (Ne.symm h0)
      have hle : (∑ k : Fin (min d D), e.vals (Fin.castLE (min_le_right d D) k).rev)
          / (∑ k, e.vals k) ≤ 1 := (div_le_one hTpos).mpr (kept_sum_le e hpos d)
      calc (∑ k : Fin (min d D), e.vals (Fin.castLE (min_le_right d D) k).rev)
            / (∑ k, e.vals k) * 100 ≤ 1 * 100 :=
            mul_le_mul_of_nonneg_right hle (by norm_num)
        _ = 100 := by norm_num
  · intro hdD hT0
    subst hdD
    rw [hfst, kept_sum_eq e d le_rfl, div_self hT0, one_mul]

/-- Witness for the explained-variance range theorem: d = D = 2 on the
data `Xex` whose covariance is [[2,0],[0,0]]. -/
theorem exvar_in_range_witness :
    (1 ≤ 2 ∧ (2:ℕ) ≤ 2 ∧ IsEighOf (npCov (center Xex)) (eighFunEx (npCov (center Xex)))) ∧
    (0 ≤ (find_principal_components 2 eighFunEx Xex).1
  ∧ (find_principal_components 2 eighFunEx Xex).1 ≤ 100
  ∧ (2 = 2 → (∑ k, (eighFunEx (npCov (center Xex))).vals k) ≠ 0 →
      (find_principal_components 2 eighFunEx Xex).1 = 100)) :=
  ⟨⟨by norm_num, by norm_num, eighXex⟩,
    exvar_in_range 2 (by norm_num) (by norm_num) eighFunEx Xex eighXex⟩

/-- C8 (counterexample to the claim as stated): on the zero-variance
data `Xzero` (two identical rows) with d = D = 2 and a valid
eigendecomposition of its zero covariance matrix, the explained
variance evaluates to 0 (numpy: nan, from the division 0/0), not 100
as the claim asserts for d = D. -/
theorem exvar_zero_variance_counterexample :
    IsEighOf (npCov (center Xzero)) (eighFunZero (npCov (center Xzero)))
  ∧ (find_principal_components 2 eighFunZero Xzero).1 = 0
  ∧ ((0 : ℝ) ≠ 100) := by
  refine ⟨eighXzero, ?_, by norm_num⟩
  show (∑ k : Fin 2, ezero.vals (Fin.castLE (min_le_right 2 2) k).rev)
      / (∑ k : Fin 2, ezero.vals k) * 100 = 0
  rw [Fin.sum_univ_two, Fin.sum_univ_two]
  norm_num [ezero, Fin.rev, Fin.castLE]

/-- C4 (amended): `find_principal_components` performs no check of d
against the feature count D.  For every d ≥ D it silently succeeds:
the numpy slices truncate to all min(d, D) = D components and the
explained variance returned is 100 whenever the total variance is
nonzero. -/
theorem fpc_silent_truncation {N D : ℕ} (d : ℕ) (hDd : D ≤ d)
    (eigh : Matrix (Fin D) (Fin D) ℝ → Eigh D) (X : Matrix (Fin N) (Fin D) ℝ)
    (hT : (∑ k, (eigh (npCov (center X))).vals k) ≠ 0) :
    (find_principal_components d eigh X).1 = 100 := by
  have hfst : (find_principal_components d eigh X).1
      = (∑ k : Fin (min d D),
          (eigh (npCov (center X))).vals (Fin.castLE (min_le_right d D) k).rev)
        / (∑ k, (eigh (npCov (center X))).vals k) * 100 := rfl
  rw [hfst, kept_sum_eq _ d hDd, div_self hT, one_mul]

/-- The eigenvalue total of the concrete example `Xex`. -/
theorem totalEx : (∑ k, (eighFunEx (npCov (center Xex))).vals k) = 2 := by
  rw [Fin.sum_univ_two]
  norm_num [eighFunEx, eex]

/-- Witness for the silent-truncation theorem: d = 3 > D = 2 on `Xex`. -/
theorem fpc_silent_truncation_witness :
    ((2:ℕ) ≤ 3 ∧ (∑ k, (eighFunEx (npCov (center Xex))).vals k) ≠ 0) ∧
    (find_principal_components 3 eighFunEx Xex).1 = 100 :=
  ⟨⟨by norm_num, by rw [totalEx]; norm_num⟩,
    fpc_silent_truncation 3 (by norm_num) eighFunEx Xex (by rw [totalEx]; norm_num)⟩

/-- C4 (counterexample to the claim as stated): constructing PCA with
d = 3 on 2-feature training data and fitting does NOT error — the
faithful embedding of `find_principal_components` is total here, as
the source contains no validation and numpy slicing never fails.  It
returns explained variance 100 and a W holding all D = 2 eigenvectors
(here the identity matrix), i.e. it silently truncates. -/
theorem fpc_no_check_counterexample :
    IsEighOf (npCov (center Xex)) (eighFunEx (npCov (center Xex)))
  ∧ (find_principal_components 3 eighFunEx Xex).1 = 100
  ∧ (∀ (i : Fin 2) (k : Fin (min 3 2)),
      (find_principal_components 3 eighFunEx Xex).2.2 i k
        = (1 : Matrix (Fin 2) (Fin 2) ℝ) i k) := by
  refine ⟨eighXex, ?_, ?_⟩
  · show (∑ k : Fin 2, eex.vals (Fin.castLE (min_le_right 3 2) k).rev)
        / (∑ k : Fin 2, eex.vals k) * 100 = 100
    rw [Fin.sum_univ_two, Fin.sum_univ_two]
    norm_num [eex, Fin.rev, Fin.castLE]
  · intro i k
    show eex.vecs i (Fin.castLE (min_le_right 3 2) k).rev = _
    fin_cases i <;> fin_cases k <;> simp [eex, Fin.rev, Matrix.one_apply]

end
